import Mathlib

/-!
Verification of the Station Kinematic & Visibility Constraint Engine of
VieSchedpp against its specification.

The C++ sources are shallowly embedded: `double` computations are modelled
as exact rational arithmetic (`ℚ`), loops become structural recursion, and
fallible operations (`std::vector::at` out-of-range, falling off the end of
a non-void function) return `Option`.  The constants `twopi` and `deg2rad`
of the source are passed as explicit rational parameters.
-/

/-- Modelled from the spec: the `Pointing` value (class `VLBI_pointingVector`,
whose header is not part of the sources here): a timestamp in seconds since
session start, plus azimuth and elevation.  In the engine the azimuth field of
a resolved pointing carries the unwrapped axis-1 coordinate and the elevation
field the axis-2 coordinate. -/
structure PointingVector where
  time : ℕ
  az : ℚ
  el : ℚ
deriving DecidableEq, Repr

/-- Embedding of `HorizonMask_line`: the stored table of azimuth and
minimum-elevation control points (fields `azimuth_` and `elevation_`). -/
structure HorizonMask_line where
  azimuth_ : List ℚ
  elevation_ : List ℚ
deriving DecidableEq, Repr

/-- Truncation toward zero, as used by the C `fmod` function. -/
def truncQ (q : ℚ) : ℤ := if q < 0 then ⌈q⌉ else ⌊q⌋

/-- Exact-arithmetic model of `fmod(x, y) = x - trunc(x/y)*y`. -/
def fmodQ (x y : ℚ) : ℚ := x - y * (truncQ (x / y) : ℚ)

/-- The normalization performed at the start of `HorizonMask_line::visible`:
`az = fmod(az, twopi); if (az < 0) az += twopi;`. -/
def normalizeAz (twopi az : ℚ) : ℚ :=
  let r := fmodQ az twopi
  if r < 0 then r + twopi else r

/-- The bracket-scan loop of `HorizonMask_line::az2el`:
`while (az > azimuth_.at(i)) ++i;` walking the list entries of index
`i, i+1, …`; `none` models the `std::out_of_range` exception thrown by
`.at` when the index reaches the end of the table. -/
def scanLoop (az : ℚ) : List ℚ → ℕ → Option ℕ
  | [], _ => none
  | a :: rest, i => if az > a then scanLoop az rest (i + 1) else some i

/-- The scan of `az2el` starts at index `i = 1`. -/
def scanIdx (azs : List ℚ) (az : ℚ) : Option ℕ := scanLoop az (azs.drop 1) 1

/-- Embedding of `HorizonMask_line::az2el`: locate the bracketing pair of
control points by linear scan from index 1, then interpolate linearly.
`none` models an out-of-range `.at` access (an exception in the C++). -/
def HorizonMask_line.az2el (m : HorizonMask_line) (az : ℚ) : Option ℚ :=
  match scanIdx m.azimuth_ az with
  | none => none
  | some i =>
    match m.azimuth_[i-1]?, m.azimuth_[i]?, m.elevation_[i-1]?, m.elevation_[i]? with
    | some a0, some a1, some e0, some e1 =>
        some (e0 + (e1 - e0) / (a1 - a0) * (az - a0))
    | _, _, _, _ => none

/-- Embedding of `HorizonMask_line::visible`: normalize the azimuth into
`[0, twopi)`, interpolate the mask, and compare elevations.  `none` models
termination through an escaping exception (the function is `noexcept`). -/
def HorizonMask_line.visible (m : HorizonMask_line) (twopi : ℚ)
    (pv : PointingVector) : Option Bool :=
  match m.az2el (normalizeAz twopi pv.az) with
  | none => none
  | some el_mask => some (decide (pv.el ≥ el_mask))

/-- The sampling loop of `HorizonMask_line::getHorizonMask`: for each list
entry `n` push `n*deg2rad` and `az2el (n*deg2rad)`. -/
def horizonLoop (m : HorizonMask_line) (deg2rad : ℚ) :
    List ℕ → Option (List ℚ × List ℚ)
  | [] => some ([], [])
  | n :: rest =>
    match m.az2el ((n : ℚ) * deg2rad), horizonLoop m deg2rad rest with
    | some e, some (azs, els) => some (((n : ℚ) * deg2rad) :: azs, e :: els)
    | _, _ => none

/-- Embedding of `HorizonMask_line::getHorizonMask`: sample the mask at the
azimuths `0°, 1°, …, 360°` (converted to radians). -/
def HorizonMask_line.getHorizonMask (m : HorizonMask_line) (deg2rad : ℚ) :
    Option (List ℚ × List ℚ) :=
  horizonLoop m deg2rad (List.range 361)

lemma scanLoop_stop (az : ℚ) (l : List ℚ) (i j : ℕ) (hij : i ≤ j)
    (hlt : ∀ t, t < j - i → ∀ c, l[t]? = some c → az > c)
    (b : ℚ) (hb : l[j - i]? = some b) (hle : az ≤ b) :
    scanLoop az l i = some j := by
  induction l generalizing i j with
  | nil => simp at hb
  | cons a rest ih =>
    rcases Nat.eq_or_lt_of_le hij with heq | hlt2
    · subst heq
      have h0 : i - i = 0 := by omega
      rw [h0, List.getElem?_cons_zero] at hb
      injection hb with hb
      subst hb
      simp [scanLoop, not_lt.mpr hle]
    · have h0 : az > a := by
        apply hlt 0 (by omega) a
        rw [List.getElem?_cons_zero]
      rw [scanLoop, if_pos h0]
      apply ih (i + 1) j (by omega)
      · intro t ht c hc
        apply hlt (t + 1) (by omega) c
        rw [List.getElem?_cons_succ]
        exact hc
      · have h1 : j - i = (j - (i + 1)) + 1 := by omega
        rw [h1, List.getElem?_cons_succ] at hb
        exact hb

lemma scanLoop_total (az : ℚ) (l : List ℚ) (i t : ℕ) (b : ℚ)
    (hb : l[t]? = some b) (hle : az ≤ b) :
    ∃ j, scanLoop az l i = some j ∧ i ≤ j ∧ j - i ≤ t := by
  induction l generalizing i t with
  | nil => simp at hb
  | cons a rest ih =>
    by_cases h : az > a
    · cases t with
      | zero =>
        rw [List.getElem?_cons_zero] at hb
        injection hb with hb
        subst hb
        exact absurd hle (not_le.mpr h)
      | succ s =>
        rw [List.getElem?_cons_succ] at hb
        obtain ⟨j, hj, hij, hjt⟩ := ih (i + 1) s hb
        refine ⟨j, ?_, by omega, by omega⟩
        rw [scanLoop, if_pos h]
        exact hj
    · exact ⟨i, by rw [scanLoop, if_neg h], le_refl i, by omega⟩

lemma scanIdx_stop (azs : List ℚ) (az : ℚ) (j : ℕ) (hj : 1 ≤ j)
    (hlt : ∀ t, 1 ≤ t → t < j → ∀ c, azs[t]? = some c → az > c)
    (b : ℚ) (hb : azs[j]? = some b) (hle : az ≤ b) :
    scanIdx azs az = some j := by
  apply scanLoop_stop az (azs.drop 1) 1 j hj _ b _ hle
  · intro t ht c hc
    rw [List.getElem?_drop] at hc
    exact hlt (1 + t) (by omega) (by omega) c hc
  · rw [List.getElem?_drop]
    have h1 : 1 + (j - 1) = j := by omega
    rw [h1]
    exact hb

lemma scanIdx_total (azs : List ℚ) (az : ℚ) (k : ℕ) (hk : 1 ≤ k) (b : ℚ)
    (hb : azs[k]? = some b) (hle : az ≤ b) :
    ∃ j, scanIdx azs az = some j ∧ 1 ≤ j ∧ j ≤ k := by
  have hb' : (azs.drop 1)[k - 1]? = some b := by
    rw [List.getElem?_drop]
    have h1 : 1 + (k - 1) = k := by omega
    rw [h1]
    exact hb
  obtain ⟨j, hj, h1, h2⟩ := scanLoop_total az (azs.drop 1) 1 (k - 1) b hb' hle
  exact ⟨j, hj, h1, by omega⟩

lemma az2el_eq (m : HorizonMask_line) (az : ℚ) (j : ℕ) (a0 a1 e0 e1 : ℚ)
    (hscan : scanIdx m.azimuth_ az = some j)
    (ha0 : m.azimuth_[j-1]? = some a0) (ha1 : m.azimuth_[j]? = some a1)
    (he0 : m.elevation_[j-1]? = some e0) (he1 : m.elevation_[j]? = some e1) :
    m.az2el az = some (e0 + (e1 - e0) / (a1 - a0) * (az - a0)) := by
  simp only [HorizonMask_line.az2el, hscan, ha0, ha1, he0, he1]

lemma pairwise_lt_getElem? {l : List ℚ} (h : l.Pairwise (· < ·)) {i j : ℕ} {x y : ℚ}
    (hx : l[i]? = some x) (hy : l[j]? = some y) (hij : i < j) : x < y := by
  have hi : i < l.length := by
    by_contra hc
    rw [List.getElem?_eq_none (by omega)] at hx
    exact Option.noConfusion hx
  have hjl : j < l.length := by
    by_contra hc
    rw [List.getElem?_eq_none (by omega)] at hy
    exact Option.noConfusion hy
  rw [List.getElem?_eq_getElem hi] at hx
  rw [List.getElem?_eq_getElem hjl] at hy
  injection hx with hx
  injection hy with hy
  subst hx
  subst hy
  exact List.pairwise_iff_get.mp h ⟨i, hi⟩ ⟨j, hjl⟩ hij

lemma lt_length_of_getElem?_some {l : List ℚ} {i : ℕ} {x : ℚ} (h : l[i]? = some x) :
    i < l.length := by
  by_contra hc
  rw [List.getElem?_eq_none (by omega)] at h
  exact Option.noConfusion h

/-- At a control point of the table, `az2el` returns that point's elevation. -/
lemma az2el_node (m : HorizonMask_line) (hmono : m.azimuth_.Pairwise (· < ·))
    (hlen : m.elevation_.length = m.azimuth_.length) (h2 : 2 ≤ m.azimuth_.length)
    (j : ℕ) (a e : ℚ) (ha : m.azimuth_[j]? = some a) (he : m.elevation_[j]? = some e) :
    m.az2el a = some e := by
  have hjlen : j < m.azimuth_.length := lt_length_of_getElem?_some ha
  by_cases hj : j = 0
  · subst hj
    have h1len : 1 < m.azimuth_.length := by omega
    have h1el : 1 < m.elevation_.length := by omega
    have ha1 : m.azimuth_[1]? = some (m.azimuth_[1]) := List.getElem?_eq_getElem h1len
    have he1 : m.elevation_[1]? = some (m.elevation_[1]) := List.getElem?_eq_getElem h1el
    have haa1 : a < m.azimuth_[1] := pairwise_lt_getElem? hmono ha ha1 (by omega)
    have hscan : scanIdx m.azimuth_ a = some 1 := by
      apply scanIdx_stop m.azimuth_ a 1 (le_refl 1) _ (m.azimuth_[1]) ha1 (le_of_lt haa1)
      intro t ht1 ht2 c
      omega
    have hval := az2el_eq m a 1 a (m.azimuth_[1]) e (m.elevation_[1]) hscan ha ha1 he he1
    rw [hval, sub_self, mul_zero, add_zero]
  · have hj1 : 1 ≤ j := by omega
    have hprevlen : j - 1 < m.azimuth_.length := by omega
    have hprevel : j - 1 < m.elevation_.length := by omega
    have ha' : m.azimuth_[j-1]? = some (m.azimuth_[j-1]) := List.getElem?_eq_getElem hprevlen
    have he' : m.elevation_[j-1]? = some (m.elevation_[j-1]) := List.getElem?_eq_getElem hprevel
    have hlt : m.azimuth_[j-1] < a := pairwise_lt_getElem? hmono ha' ha (by omega)
    have hscan : scanIdx m.azimuth_ a = some j := by
      apply scanIdx_stop m.azimuth_ a j hj1 _ a ha (le_refl a)
      intro t ht1 ht2 c hc
      have hct : t < m.azimuth_.length := lt_length_of_getElem?_some hc
      exact pairwise_lt_getElem? hmono hc ha ht2
    have hval := az2el_eq m a j (m.azimuth_[j-1]) a (m.elevation_[j-1]) e hscan ha' ha he' he
    rw [hval]
    have hne : a - m.azimuth_[j-1] ≠ 0 := sub_ne_zero.mpr (ne_of_gt hlt)
    rw [div_mul_cancel₀ _ hne]
    have hv : m.elevation_[j-1] + (e - m.elevation_[j-1]) = e := by ring
    rw [hv]

/-- Strictly inside a bracket (or at its right end), `az2el` returns the linear
interpolation over that bracket. -/
lemma az2el_between (m : HorizonMask_line) (hmono : m.azimuth_.Pairwise (· < ·))
    (j : ℕ) (a0 a1 e0 e1 az : ℚ)
    (ha0 : m.azimuth_[j]? = some a0) (ha1 : m.azimuth_[j+1]? = some a1)
    (he0 : m.elevation_[j]? = some e0) (he1 : m.elevation_[j+1]? = some e1)
    (hgt : a0 < az) (hle : az ≤ a1) :
    m.az2el az = some (e0 + (e1 - e0) / (a1 - a0) * (az - a0)) := by
  have hscan : scanIdx m.azimuth_ az = some (j + 1) := by
    apply scanIdx_stop m.azimuth_ az (j+1) (by omega) _ a1 ha1 hle
    intro t ht1 ht2 c hc
    rcases Nat.lt_or_ge t j with htj | htj
    · exact lt_trans (pairwise_lt_getElem? hmono hc ha0 htj) hgt
    · have htj' : t = j := by omega
      subst htj'
      rw [hc] at ha0
      injection ha0 with ha0
      rw [ha0]
      exact hgt
  exact az2el_eq m az (j+1) a0 a1 e0 e1 hscan ha0 ha1 he0 he1

/-- C1: for a horizon-mask table with strictly increasing azimuths, at any two
consecutive control points (az0, el0), (az1, el1) the interpolated minimum
elevation computed by `az2el` equals el0 exactly at az0, el1 exactly at az1,
and (el0+el1)/2 at the midpoint azimuth (az0+az1)/2. -/
theorem C1_mask_interpolation (m : HorizonMask_line)
    (hmono : m.azimuth_.Pairwise (· < ·))
    (hlen : m.elevation_.length = m.azimuth_.length)
    (j : ℕ) (az0 az1 el0 el1 : ℚ)
    (ha0 : m.azimuth_[j]? = some az0) (ha1 : m.azimuth_[j+1]? = some az1)
    (he0 : m.elevation_[j]? = some el0) (he1 : m.elevation_[j+1]? = some el1) :
    m.az2el az0 = some el0 ∧ m.az2el az1 = some el1 ∧
    m.az2el ((az0 + az1) / 2) = some ((el0 + el1) / 2) := by
  have h2 : 2 ≤ m.azimuth_.length := by
    have := lt_length_of_getElem?_some ha1
    omega
  have haz : az0 < az1 := pairwise_lt_getElem? hmono ha0 ha1 (by omega)
  refine ⟨az2el_node m hmono hlen h2 j az0 el0 ha0 he0,
          az2el_node m hmono hlen h2 (j+1) az1 el1 ha1 he1, ?_⟩
  have hmid := az2el_between m hmono j az0 az1 el0 el1 ((az0 + az1) / 2) ha0 ha1 he0 he1
      (by linarith) (by linarith)
  rw [hmid]
  have hne : az1 - az0 ≠ 0 := sub_ne_zero.mpr (ne_of_gt haz)
  have hv : el0 + (el1 - el0) / (az1 - az0) * ((az0 + az1) / 2 - az0) = (el0 + el1) / 2 := by
    field_simp
    ring
  rw [hv]

/-- Witness for C1 on the concrete table az [0, 4, 7], el [1, 2, 1] at j = 0. -/
theorem C1_mask_interpolation_witness :
    ([0, 4, 7] : List ℚ).Pairwise (· < ·) ∧
    ([1, 2, 1] : List ℚ).length = ([0, 4, 7] : List ℚ).length ∧
    HorizonMask_line.az2el ⟨[0, 4, 7], [1, 2, 1]⟩ 0 = some 1 ∧
    HorizonMask_line.az2el ⟨[0, 4, 7], [1, 2, 1]⟩ 4 = some 2 ∧
    HorizonMask_line.az2el ⟨[0, 4, 7], [1, 2, 1]⟩ ((0 + 4) / 2) = some ((1 + 2) / 2) := by
  have hmono : ([0, 4, 7] : List ℚ).Pairwise (· < ·) := by
    norm_num [List.pairwise_cons]
  have h := C1_mask_interpolation ⟨[0, 4, 7], [1, 2, 1]⟩ hmono rfl 0 0 4 1 2 rfl rfl rfl rfl
  exact ⟨hmono, rfl, h.1, h.2.1, h.2.2⟩
lemma normalizeAz_eq_fract (T az : ℚ) (hT : 0 < T) :
    normalizeAz T az = T * Int.fract (az / T) := by
  have hT0 : T ≠ 0 := ne_of_gt hT
  have hsub : ∀ c : ℤ, az - T * (c : ℚ) = T * (az / T - c) := by
    intro c
    rw [mul_sub, mul_comm T (az / T), div_mul_cancel₀ az hT0]
  have htr : truncQ (az / T) = ⌊az / T⌋ ∨
      (truncQ (az / T) = ⌊az / T⌋ + 1 ∧ 0 < Int.fract (az / T)) := by
    rw [truncQ]
    by_cases hx : az / T < 0
    · rw [if_pos hx]
      by_cases hfr : Int.fract (az / T) = 0
      · left
        have hxeq : az / T = ((⌊az / T⌋ : ℤ) : ℚ) := by
          have h1 : az / T - ⌊az / T⌋ = Int.fract (az / T) := Int.self_sub_floor _
          rw [hfr] at h1
          linarith
        rw [hxeq, Int.ceil_intCast, Int.floor_intCast]
      · right
        have hfr' : 0 < Int.fract (az / T) :=
          lt_of_le_of_ne (Int.fract_nonneg _) (Ne.symm hfr)
        refine ⟨?_, hfr'⟩
        rw [Int.ceil_eq_iff]
        constructor
        · push_cast
          have h1 : (⌊az / T⌋ : ℚ) ≤ az / T := Int.floor_le _
          have h2 : az / T - ⌊az / T⌋ = Int.fract (az / T) := Int.self_sub_floor _
          linarith
        · push_cast
          have h3 : az / T < ⌊az / T⌋ + 1 := Int.lt_floor_add_one _
          linarith
    · left
      rw [if_neg hx]
  simp only [normalizeAz, fmodQ]
  rcases htr with h | ⟨h, hfr⟩
  · rw [h, hsub]
    have hfe : az / T - (⌊az / T⌋ : ℚ) = Int.fract (az / T) := Int.self_sub_floor _
    rw [hfe]
    rw [if_neg]
    push_neg
    exact mul_nonneg (le_of_lt hT) (Int.fract_nonneg _)
  · rw [h, hsub]
    have hfe : az / T - ((⌊az / T⌋ + 1 : ℤ) : ℚ) = Int.fract (az / T) - 1 := by
      push_cast
      have h2 : az / T - ⌊az / T⌋ = Int.fract (az / T) := Int.self_sub_floor _
      linarith
    rw [hfe]
    rw [if_pos]
    · ring
    · have hlt1 : Int.fract (az / T) - 1 < 0 := by
        have := Int.fract_lt_one (az / T)
        linarith
      exact mul_neg_of_pos_of_neg hT hlt1

lemma normalizeAz_period (T az : ℚ) (hT : 0 < T) (k : ℤ) :
    normalizeAz T (az + T * k) = normalizeAz T az := by
  have hT0 : T ≠ 0 := ne_of_gt hT
  rw [normalizeAz_eq_fract T _ hT, normalizeAz_eq_fract T az hT]
  congr 1
  have hdiv : (az + T * k) / T = az / T + (k : ℚ) := by
    rw [add_div, mul_comm T (k : ℚ), mul_div_assoc, div_self hT0, mul_one]
  rw [hdiv, Int.fract_add_int]

lemma normalizeAz_nonneg (T az : ℚ) (hT : 0 < T) : 0 ≤ normalizeAz T az := by
  rw [normalizeAz_eq_fract T az hT]
  exact mul_nonneg (le_of_lt hT) (Int.fract_nonneg _)

lemma normalizeAz_lt (T az : ℚ) (hT : 0 < T) : normalizeAz T az < T := by
  rw [normalizeAz_eq_fract T az hT]
  calc T * Int.fract (az / T) < T * 1 :=
        (mul_lt_mul_left hT).mpr (Int.fract_lt_one _)
    _ = T := mul_one T

lemma az2el_total (m : HorizonMask_line)
    (hlen : m.elevation_.length = m.azimuth_.length)
    (az : ℚ) (k : ℕ) (hk : 1 ≤ k) (b : ℚ)
    (hb : m.azimuth_[k]? = some b) (hle : az ≤ b) :
    ∃ e, m.az2el az = some e := by
  obtain ⟨j, hscan, hj1, hjk⟩ := scanIdx_total m.azimuth_ az k hk b hb hle
  have hklen : k < m.azimuth_.length := lt_length_of_getElem?_some hb
  have hj : j < m.azimuth_.length := by omega
  have hj' : j - 1 < m.azimuth_.length := by omega
  have hej : j < m.elevation_.length := by omega
  have hej' : j - 1 < m.elevation_.length := by omega
  exact ⟨_, az2el_eq m az j _ _ _ _ hscan (List.getElem?_eq_getElem hj')
    (List.getElem?_eq_getElem hj) (List.getElem?_eq_getElem hej')
    (List.getElem?_eq_getElem hej)⟩

/-- C7: for a well-formed horizon-mask table whose last azimuth is at least
twopi, the visibility query is total: for every pointing vector the mask
interpolation succeeds and `visible` returns exactly the boolean decided by
the inequality elevation ≥ interpolated minimum — the bracket scan and the
indexing stay within bounds. -/
theorem C7_visible_total (m : HorizonMask_line) (twopi : ℚ) (hT : 0 < twopi)
    (hmono : m.azimuth_.Pairwise (· < ·))
    (hlen : m.elevation_.length = m.azimuth_.length)
    (h2 : 2 ≤ m.azimuth_.length)
    (hlast : twopi ≤ m.azimuth_[m.azimuth_.length - 1]) :
    ∀ pv : PointingVector,
      (m.az2el (normalizeAz twopi pv.az)).isSome = true ∧
      m.visible twopi pv =
        (m.az2el (normalizeAz twopi pv.az)).map (fun e => decide (pv.el ≥ e)) := by
  intro pv
  have hb : m.azimuth_[m.azimuth_.length - 1]? =
      some (m.azimuth_[m.azimuth_.length - 1]) :=
    List.getElem?_eq_getElem (by omega)
  have hle : normalizeAz twopi pv.az ≤ m.azimuth_[m.azimuth_.length - 1] :=
    le_of_lt (lt_of_lt_of_le (normalizeAz_lt twopi pv.az hT) hlast)
  obtain ⟨e, he⟩ :=
    az2el_total m hlen (normalizeAz twopi pv.az) (m.azimuth_.length - 1)
      (by omega) _ hb hle
  constructor
  · rw [he]
    rfl
  · simp only [HorizonMask_line.visible, he]
    rfl

/-- Witness for C7 on the table az [0, 4, 7], el [1, 2, 1] with twopi = 7. -/
theorem C7_visible_total_witness :
    (0 : ℚ) < 7 ∧ ([0, 4, 7] : List ℚ).Pairwise (· < ·) ∧
    ([1, 2, 1] : List ℚ).length = ([0, 4, 7] : List ℚ).length ∧
    2 ≤ ([0, 4, 7] : List ℚ).length ∧
    (7 : ℚ) ≤ ([0, 4, 7] : List ℚ)[([0, 4, 7] : List ℚ).length - 1] ∧
    ((HorizonMask_line.az2el ⟨[0, 4, 7], [1, 2, 1]⟩
        (normalizeAz 7 (PointingVector.mk 3 9 5).az)).isSome = true ∧
      HorizonMask_line.visible ⟨[0, 4, 7], [1, 2, 1]⟩ 7 ⟨3, 9, 5⟩ =
        (HorizonMask_line.az2el ⟨[0, 4, 7], [1, 2, 1]⟩
          (normalizeAz 7 (PointingVector.mk 3 9 5).az)).map
          (fun e => decide ((PointingVector.mk 3 9 5).el ≥ e))) := by
  have hmono : ([0, 4, 7] : List ℚ).Pairwise (· < ·) := by
    norm_num [List.pairwise_cons]
  have hlast : (7 : ℚ) ≤ ([0, 4, 7] : List ℚ)[([0, 4, 7] : List ℚ).length - 1] := by
    norm_num
  exact ⟨by norm_num, hmono, rfl, by norm_num, hlast,
    C7_visible_total ⟨[0, 4, 7], [1, 2, 1]⟩ 7 (by norm_num) hmono rfl (by norm_num)
      hlast ⟨3, 9, 5⟩⟩

lemma horizonLoop_some (m : HorizonMask_line) (d : ℚ) :
    ∀ ns : List ℕ, (∀ n ∈ ns, ∃ e, m.az2el ((n : ℚ) * d) = some e) →
    ∃ (azs : List ℚ) (els : List ℚ), horizonLoop m d ns = some (azs, els) ∧
      azs = ns.map (fun n : ℕ => (n : ℚ) * d) ∧ els.length = ns.length ∧
      ∀ (t : ℕ) (n : ℕ), ns[t]? = some n → els[t]? = m.az2el ((n : ℚ) * d) := by
  intro ns
  induction ns with
  | nil =>
    intro _
    refine ⟨[], [], rfl, rfl, rfl, ?_⟩
    intro t n h
    simp at h
  | cons n rest ih =>
    intro h
    obtain ⟨e, he⟩ := h n (List.mem_cons_self n rest)
    obtain ⟨azs, els, hloop, hazs, hlen, hels⟩ :=
      ih (fun x hx => h x (List.mem_cons_of_mem n hx))
    refine ⟨((n : ℚ) * d) :: azs, e :: els, ?_, ?_, ?_, ?_⟩
    · simp only [horizonLoop, he, hloop]
    · rw [List.map_cons, hazs]
    · simp [hlen]
    · intro t x hx
      cases t with
      | zero =>
        rw [List.getElem?_cons_zero] at hx
        injection hx with hx
        subst hx
        rw [List.getElem?_cons_zero, he]
      | succ s =>
        rw [List.getElem?_cons_succ] at hx
        rw [List.getElem?_cons_succ]
        exact hels s x hx

/-- C10: the boundary export `getHorizonMask` returns exactly 361 sample
pairs at one-degree steps covering 0° through 360° inclusive, azimuths (in
radians) strictly increasing, each elevation equal to the interpolated mask
minimum at that azimuth; for a table spanning one full revolution the last
sample's elevation equals the first sample's. -/
theorem C10_getHorizonMask (m : HorizonMask_line) (deg2rad : ℚ) (hd : 0 < deg2rad)
    (hmono : m.azimuth_.Pairwise (· < ·))
    (hlen : m.elevation_.length = m.azimuth_.length)
    (h2 : 2 ≤ m.azimuth_.length)
    (hfirst : m.azimuth_[0]? = some 0)
    (hlast : m.azimuth_[m.azimuth_.length - 1]? = some (360 * deg2rad))
    (hwrap : m.elevation_[m.azimuth_.length - 1]? = m.elevation_[0]?) :
    ∃ (azs : List ℚ) (els : List ℚ), m.getHorizonMask deg2rad = some (azs, els) ∧
      azs.length = 361 ∧ els.length = 361 ∧
      azs.Pairwise (· < ·) ∧
      (∀ t : ℕ, t < 361 → azs[t]? = some ((t : ℚ) * deg2rad) ∧
        els[t]? = m.az2el ((t : ℚ) * deg2rad)) ∧
      els[360]? = els[0]? := by
  have htot : ∀ n ∈ List.range 361, ∃ e, m.az2el ((n : ℚ) * deg2rad) = some e := by
    intro n hn
    rw [List.mem_range] at hn
    have hcast : (n : ℚ) ≤ 360 := by
      exact_mod_cast Nat.le_of_lt_succ hn
    have hble : (n : ℚ) * deg2rad ≤ 360 * deg2rad :=
      mul_le_mul_of_nonneg_right hcast (le_of_lt hd)
    exact az2el_total m hlen ((n : ℚ) * deg2rad) (m.azimuth_.length - 1) (by omega)
      (360 * deg2rad) hlast hble
  obtain ⟨azs, els, hloop, hazs, hlenr, hels⟩ :=
    horizonLoop_some m deg2rad (List.range 361) htot
  have hazslen : azs.length = 361 := by
    rw [hazs, List.length_map, List.length_range]
  have helslen : els.length = 361 := by
    rw [hlenr, List.length_range]
  have hidx : ∀ t : ℕ, t < 361 → azs[t]? = some ((t : ℚ) * deg2rad) ∧
      els[t]? = m.az2el ((t : ℚ) * deg2rad) := by
    intro t ht
    have hrt : (List.range 361)[t]? = some t := by
      rw [List.getElem?_range ht]
    constructor
    · rw [hazs, List.getElem?_map, hrt, Option.map_some']
    · exact hels t t hrt
  have he0 : ∃ e0, m.elevation_[0]? = some e0 := by
    have h0 : (0 : ℕ) < m.elevation_.length := by omega
    exact ⟨_, List.getElem?_eq_getElem h0⟩
  obtain ⟨e0, he0⟩ := he0
  have hlastel : m.elevation_[m.azimuth_.length - 1]? = some e0 := by
    rw [hwrap, he0]
  have haz360 : m.az2el (360 * deg2rad) = some e0 :=
    az2el_node m hmono hlen h2 (m.azimuth_.length - 1) (360 * deg2rad) e0 hlast
      (by rw [show m.azimuth_.length - 1 = m.elevation_.length - 1 from by omega] at hlastel ⊢
          exact hlastel)
  have haz0 : m.az2el 0 = some e0 :=
    az2el_node m hmono hlen h2 0 0 e0 hfirst he0
  refine ⟨azs, els, hloop, hazslen, helslen, ?_, hidx, ?_⟩
  · rw [hazs]
    refine List.Pairwise.map _ ?_ (List.pairwise_lt_range 361)
    intro a b hab
    have hcab : (a : ℚ) < (b : ℚ) := by exact_mod_cast hab
    exact mul_lt_mul_of_pos_right hcab hd
  · have h360 : els[360]? = m.az2el ((360 : ℕ) * deg2rad) := (hidx 360 (by omega)).2
    have h0' : els[0]? = m.az2el ((0 : ℕ) * deg2rad) := (hidx 0 (by omega)).2
    rw [h360, h0']
    have hc360 : ((360 : ℕ) : ℚ) * deg2rad = 360 * deg2rad := by norm_num
    have hc0 : ((0 : ℕ) : ℚ) * deg2rad = 0 := by norm_num
    rw [hc360, hc0, haz360, haz0]

/-- Witness for C10 on the table az [0, 2, 18/5], el [1, 2, 1] with
deg2rad = 1/100 (so that 360·deg2rad = 18/5). -/
theorem C10_getHorizonMask_witness :
    (0 : ℚ) < 1/100 ∧ ([0, 2, 18/5] : List ℚ).Pairwise (· < ·) ∧
    ([1, 2, 1] : List ℚ).length = ([0, 2, 18/5] : List ℚ).length ∧
    2 ≤ ([0, 2, 18/5] : List ℚ).length ∧
    ([0, 2, 18/5] : List ℚ)[0]? = some 0 ∧
    ([0, 2, 18/5] : List ℚ)[([0, 2, 18/5] : List ℚ).length - 1]? =
      some (360 * (1/100)) ∧
    ([1, 2, 1] : List ℚ)[([0, 2, 18/5] : List ℚ).length - 1]? =
      ([1, 2, 1] : List ℚ)[0]? ∧
    (∃ (azs : List ℚ) (els : List ℚ),
      HorizonMask_line.getHorizonMask ⟨[0, 2, 18/5], [1, 2, 1]⟩ (1/100) =
        some (azs, els) ∧
      azs.length = 361 ∧ els.length = 361 ∧ azs.Pairwise (· < ·) ∧
      (∀ t : ℕ, t < 361 → azs[t]? = some ((t : ℚ) * (1/100)) ∧
        els[t]? = HorizonMask_line.az2el ⟨[0, 2, 18/5], [1, 2, 1]⟩
          ((t : ℚ) * (1/100))) ∧
      els[360]? = els[0]?) := by
  have hmono : ([0, 2, 18/5] : List ℚ).Pairwise (· < ·) := by
    norm_num [List.pairwise_cons]
  have hlast : ([0, 2, 18/5] : List ℚ)[([0, 2, 18/5] : List ℚ).length - 1]? =
      some (360 * (1/100)) := by
    show some ((18 : ℚ)/5) = some (360 * (1/100))
    norm_num
  refine ⟨by norm_num, hmono, rfl, by norm_num, rfl, hlast, rfl, ?_⟩
  exact C10_getHorizonMask ⟨[0, 2, 18/5], [1, 2, 1]⟩ (1/100) (by norm_num) hmono
    rfl (by norm_num) rfl hlast rfl

/-- C2: `visible` at azimuth θ and at azimuth θ + twopi·k (any integer k)
yields identical results: the query azimuth is normalized into [0, twopi)
before interpolation. -/
theorem C2_wrap_normalization (m : HorizonMask_line) (twopi : ℚ) (hT : 0 < twopi)
    (t : ℕ) (θ el : ℚ) (k : ℤ) :
    m.visible twopi ⟨t, θ + twopi * (k : ℚ), el⟩ = m.visible twopi ⟨t, θ, el⟩ := by
  simp only [HorizonMask_line.visible]
  rw [normalizeAz_period twopi θ hT k]

/-- Witness for C2: a concrete mask, azimuth 2 against 2 - 2·7, period 7. -/
theorem C2_wrap_normalization_witness :
    (0 : ℚ) < 7 ∧
    HorizonMask_line.visible ⟨[0, 4, 7], [1, 2, 1]⟩ 7 ⟨3, 2 + 7 * ((-2 : ℤ) : ℚ), 5⟩ =
    HorizonMask_line.visible ⟨[0, 4, 7], [1, 2, 1]⟩ 7 ⟨3, 2, 5⟩ :=
  ⟨by norm_num, C2_wrap_normalization ⟨[0, 4, 7], [1, 2, 1]⟩ 7 (by norm_num) 3 2 5 (-2)⟩

/-- Modelled from the spec: the mutable per-station record of `VLBI_station`
(src/VLBI_station.h declares the fields `current`, `history_time`,
`history_events`, `pv_starScan`, `pv_endScan`, `nscans`, `nbls` and the
parameter flag `PARA.firstScan`; the implementation file VLBI_station.cpp is
absent from the sources). -/
structure StationState where
  current : PointingVector
  history_time : List ℕ
  history_events : List String
  pv_starScan : List PointingVector
  pv_endScan : List PointingVector
  nscans : ℤ
  nbls : ℤ
  firstScan : Bool
deriving DecidableEq, Repr

/-- Modelled from the spec: `VLBI_station::update(nbl, start, end, times,
srcName)` — declared in src/VLBI_station.h (lines 471-472) with its
implementation absent.  Per spec §4.4 it appends the event timestamps (with
one source label per timestamp) to the history, appends the start/end
pointings to the per-scan pointing logs, sets the current pointing to the
end pointing, increments nscans by 1 and nbls by the baseline count, and
clears the first-scan flag. -/
def StationState.update (s : StationState) (nbl : ℕ) (start endp : PointingVector)
    (times : List ℕ) (srcName : String) : StationState :=
  { s with
    history_time := s.history_time ++ times,
    history_events := s.history_events ++ times.map (fun _ => srcName),
    pv_starScan := s.pv_starScan ++ [start],
    pv_endScan := s.pv_endScan ++ [endp],
    current := endp,
    nscans := s.nscans + 1,
    nbls := s.nbls + (nbl : ℤ),
    firstScan := false }

/-- Modelled from the spec: one commit request to the station state
(the argument tuple of `VLBI_station::update`). -/
structure CommitReq where
  nbl : ℕ
  start : PointingVector
  endp : PointingVector
  times : List ℕ
  srcName : String
deriving DecidableEq, Repr

/-- Modelled from the spec: the guarded commit transition — §7 classifies a
commit whose timestamp is earlier than the current pointing's timestamp as a
caller contract violation that the engine may reject with a precondition
failure rather than silently reordering history; `none` models that
rejection. -/
def StationState.commit (s : StationState) (r : CommitReq) : Option StationState :=
  if r.endp.time < s.current.time then none
  else some (s.update r.nbl r.start r.endp r.times r.srcName)

/-- Modelled from the spec: a sequence of commits applied in order; the first
rejected commit aborts the sequence. -/
def StationState.commitSeq : StationState → List CommitReq → Option StationState
  | s, [] => some s
  | s, r :: rs =>
    match s.commit r with
    | none => none
    | some s2 => StationState.commitSeq s2 rs

/-- C3: after `update(nbl, start, end, times, srcName)`, nscans grows by 1,
nbls by nbl, the current pointing equals the supplied end pointing, the
event-history length grows by exactly the number of supplied time stamps,
start and end are appended to the per-scan pointing logs, and the first-scan
flag is cleared. -/
theorem C3_update_commit (s : StationState) (nbl : ℕ) (start endp : PointingVector)
    (times : List ℕ) (srcName : String) :
    (s.update nbl start endp times srcName).nscans = s.nscans + 1 ∧
    (s.update nbl start endp times srcName).nbls = s.nbls + (nbl : ℤ) ∧
    (s.update nbl start endp times srcName).current = endp ∧
    (s.update nbl start endp times srcName).history_time.length =
      s.history_time.length + times.length ∧
    (s.update nbl start endp times srcName).pv_starScan = s.pv_starScan ++ [start] ∧
    (s.update nbl start endp times srcName).pv_endScan = s.pv_endScan ++ [endp] ∧
    (s.update nbl start endp times srcName).firstScan = false := by
  refine ⟨rfl, rfl, rfl, ?_, rfl, rfl, rfl⟩
  simp [StationState.update]

/-- C4: over any sequence of successful commits the current pointing's
timestamp is monotonically non-decreasing and the counters nscans and nbls
never decrease; a commit whose end timestamp is earlier than the current
pointing's timestamp is rejected as a precondition failure. -/
theorem C4_commit_monotone :
    (∀ (s : StationState) (reqs : List CommitReq) (s2 : StationState),
      StationState.commitSeq s reqs = some s2 →
      s.current.time ≤ s2.current.time ∧ s.nscans ≤ s2.nscans ∧ s.nbls ≤ s2.nbls) ∧
    (∀ (s : StationState) (r : CommitReq),
      r.endp.time < s.current.time → s.commit r = none) := by
  constructor
  · intro s reqs
    induction reqs generalizing s with
    | nil =>
      intro s2 h
      rw [StationState.commitSeq] at h
      injection h with h
      subst h
      exact ⟨le_refl _, le_refl _, le_refl _⟩
    | cons r rs ih =>
      intro s2 h
      rw [StationState.commitSeq] at h
      rw [StationState.commit] at h
      by_cases hc : r.endp.time < s.current.time
      · rw [if_pos hc] at h
        exact Option.noConfusion h
      · rw [if_neg hc] at h
        have h' : StationState.commitSeq
            (s.update r.nbl r.start r.endp r.times r.srcName) rs = some s2 := h
        obtain ⟨h1, h2, h3⟩ := ih (s.update r.nbl r.start r.endp r.times r.srcName) s2 h'
        refine ⟨?_, ?_, ?_⟩
        · have : s.current.time ≤ r.endp.time := not_lt.mp hc
          calc s.current.time ≤ r.endp.time := this
            _ ≤ s2.current.time := h1
        · calc s.nscans ≤ s.nscans + 1 := by omega
            _ ≤ s2.nscans := h2
        · calc s.nbls ≤ s.nbls + (r.nbl : ℤ) := by omega
            _ ≤ s2.nbls := h3
  · intro s r h
    rw [StationState.commit, if_pos h]

/-- Witness for C4: two successful commits (end times 5 then 9) from a fresh
state, then a stale commit (end time 1) is rejected. -/
theorem C4_commit_monotone_witness :
    StationState.commitSeq ⟨⟨0, 0, 0⟩, [], [], [], [], 0, 0, true⟩
      [⟨2, ⟨4, 1, 1⟩, ⟨5, 1, 1⟩, [4, 5], "A"⟩, ⟨3, ⟨8, 2, 2⟩, ⟨9, 2, 2⟩, [8, 9], "B"⟩] =
      some ⟨⟨9, 2, 2⟩, [4, 5, 8, 9], ["A", "A", "B", "B"],
        [⟨4, 1, 1⟩, ⟨8, 2, 2⟩], [⟨5, 1, 1⟩, ⟨9, 2, 2⟩], 2, 5, false⟩ ∧
    ((⟨⟨0, 0, 0⟩, [], [], [], [], 0, 0, true⟩ : StationState).current.time ≤
      (⟨⟨9, 2, 2⟩, [4, 5, 8, 9], ["A", "A", "B", "B"],
        [⟨4, 1, 1⟩, ⟨8, 2, 2⟩], [⟨5, 1, 1⟩, ⟨9, 2, 2⟩], 2, 5, false⟩ : StationState).current.time ∧
      (0 : ℤ) ≤ 2 ∧ (0 : ℤ) ≤ 5) ∧
    (⟨1, ⟨1, 3, 3⟩, ⟨1, 3, 3⟩, [1], "C"⟩ : CommitReq).endp.time <
      (⟨⟨9, 2, 2⟩, [4, 5, 8, 9], ["A", "A", "B", "B"],
        [⟨4, 1, 1⟩, ⟨8, 2, 2⟩], [⟨5, 1, 1⟩, ⟨9, 2, 2⟩], 2, 5, false⟩ : StationState).current.time ∧
    (⟨⟨9, 2, 2⟩, [4, 5, 8, 9], ["A", "A", "B", "B"],
        [⟨4, 1, 1⟩, ⟨8, 2, 2⟩], [⟨5, 1, 1⟩, ⟨9, 2, 2⟩], 2, 5, false⟩ : StationState).commit
      ⟨1, ⟨1, 3, 3⟩, ⟨1, 3, 3⟩, [1], "C"⟩ = none := by
  refine ⟨rfl, ?_, by norm_num, ?_⟩
  · have h := C4_commit_monotone.1 ⟨⟨0, 0, 0⟩, [], [], [], [], 0, 0, true⟩
      [⟨2, ⟨4, 1, 1⟩, ⟨5, 1, 1⟩, [4, 5], "A"⟩, ⟨3, ⟨8, 2, 2⟩, ⟨9, 2, 2⟩, [8, 9], "B"⟩]
      ⟨⟨9, 2, 2⟩, [4, 5, 8, 9], ["A", "A", "B", "B"],
        [⟨4, 1, 1⟩, ⟨8, 2, 2⟩], [⟨5, 1, 1⟩, ⟨9, 2, 2⟩], 2, 5, false⟩ rfl
    exact h
  · exact C4_commit_monotone.2
      ⟨⟨9, 2, 2⟩, [4, 5, 8, 9], ["A", "A", "B", "B"],
        [⟨4, 1, 1⟩, ⟨8, 2, 2⟩], [⟨5, 1, 1⟩, ⟨9, 2, 2⟩], 2, 5, false⟩
      ⟨1, ⟨1, 3, 3⟩, ⟨1, 3, 3⟩, [1], "C"⟩ (by norm_num)

/-- Modelled from the spec: the wrapped axis-1 candidate set of §4.2 — every
value `az + k·T` (k an integer, T the wrap period, i.e. 2π) that lies inside
the contracted axis limits [low, up].  The candidate-generation rule backs
`VLBI_station::unwrapAz`, declared in src/VLBI_station.h (lines 351-363)
with its implementation absent from the sources. -/
def axisCandidates (low up T az : ℚ) : List ℚ :=
  (List.range (⌊(up - az) / T⌋ - ⌈(low - az) / T⌉ + 1).toNat).map
    (fun j : ℕ => az + ((⌈(low - az) / T⌉ + (j : ℤ) : ℤ) : ℚ) * T)

/-- Modelled from the spec: `VLBI_station::unwrapAz` nearest-to-current
disambiguation — among the in-range candidates pick the one minimizing the
absolute distance to the current axis-1 coordinate; `none` when no candidate
lies within the limits (then visibility is false and slew time undefined). -/
def unwrapAz (low up T current az : ℚ) : Option ℚ :=
  match axisCandidates low up T az with
  | [] => none
  | c :: cs =>
    some (cs.foldl (fun best c2 => if |c2 - current| < |best - current| then c2 else best) c)

lemma mem_axisCandidates (low up T az : ℚ) (hT : 0 < T) (c : ℚ) :
    c ∈ axisCandidates low up T az ↔
      low ≤ c ∧ c ≤ up ∧ ∃ k : ℤ, c = az + (k : ℚ) * T := by
  rw [axisCandidates, List.mem_map]
  constructor
  · rintro ⟨j, hj, rfl⟩
    rw [List.mem_range] at hj
    have hk1 : ⌈(low - az) / T⌉ ≤ ⌈(low - az) / T⌉ + (j : ℤ) := by omega
    have hk2 : ⌈(low - az) / T⌉ + (j : ℤ) ≤ ⌊(up - az) / T⌋ := by omega
    refine ⟨?_, ?_, ⟨⌈(low - az) / T⌉ + (j : ℤ), rfl⟩⟩
    · have h1 : (low - az) / T ≤ ((⌈(low - az) / T⌉ + (j : ℤ) : ℤ) : ℚ) := by
        calc (low - az) / T ≤ (⌈(low - az) / T⌉ : ℚ) := Int.le_ceil _
          _ ≤ ((⌈(low - az) / T⌉ + (j : ℤ) : ℤ) : ℚ) := by exact_mod_cast hk1
      rw [div_le_iff₀ hT] at h1
      linarith
    · have h2 : ((⌈(low - az) / T⌉ + (j : ℤ) : ℤ) : ℚ) ≤ (up - az) / T := by
        have := Int.le_floor.mp (le_refl ⌊(up - az) / T⌋)
        calc ((⌈(low - az) / T⌉ + (j : ℤ) : ℤ) : ℚ) ≤ (⌊(up - az) / T⌋ : ℚ) := by
              exact_mod_cast hk2
          _ ≤ (up - az) / T := Int.floor_le _
      rw [le_div_iff₀ hT] at h2
      linarith
  · rintro ⟨h1, h2, k, rfl⟩
    have hkmin : ⌈(low - az) / T⌉ ≤ k := by
      rw [Int.ceil_le, div_le_iff₀ hT]
      linarith
    have hkmax : k ≤ ⌊(up - az) / T⌋ := by
      rw [Int.le_floor, le_div_iff₀ hT]
      linarith
    refine ⟨(k - ⌈(low - az) / T⌉).toNat, ?_, ?_⟩
    · rw [List.mem_range]
      omega
    · have h3 : ⌈(low - az) / T⌉ + (((k - ⌈(low - az) / T⌉).toNat : ℕ) : ℤ) = k := by
        omega
      rw [h3]

lemma foldl_min_choose (cur : ℚ) (cs : List ℚ) :
    ∀ acc : ℚ,
      cs.foldl (fun best c2 => if |c2 - cur| < |best - cur| then c2 else best) acc = acc ∨
      cs.foldl (fun best c2 => if |c2 - cur| < |best - cur| then c2 else best) acc ∈ cs := by
  induction cs with
  | nil => intro acc; left; rfl
  | cons c cs ih =>
    intro acc
    rw [List.foldl_cons]
    rcases ih (if |c - cur| < |acc - cur| then c else acc) with h | h
    · rw [h]
      by_cases hc : |c - cur| < |acc - cur|
      · right
        rw [if_pos hc]
        exact List.mem_cons_self _ _
      · left
        rw [if_neg hc]
    · right
      exact List.mem_cons_of_mem _ h

lemma foldl_min_le (cur : ℚ) (cs : List ℚ) :
    ∀ acc : ℚ,
      |cs.foldl (fun best c2 => if |c2 - cur| < |best - cur| then c2 else best) acc - cur| ≤
        |acc - cur| ∧
      ∀ x ∈ cs,
        |cs.foldl (fun best c2 => if |c2 - cur| < |best - cur| then c2 else best) acc - cur| ≤
          |x - cur| := by
  induction cs with
  | nil =>
    intro acc
    refine ⟨le_refl _, ?_⟩
    intro x hx
    simp at hx
  | cons c cs ih =>
    intro acc
    rw [List.foldl_cons]
    obtain ⟨h1, h2⟩ := ih (if |c - cur| < |acc - cur| then c else acc)
    have hacc : |(if |c - cur| < |acc - cur| then c else acc) - cur| ≤ |acc - cur| := by
      by_cases hc : |c - cur| < |acc - cur|
      · rw [if_pos hc]
        exact le_of_lt hc
      · rw [if_neg hc]
    have hc2 : |(if |c - cur| < |acc - cur| then c else acc) - cur| ≤ |c - cur| := by
      by_cases hc : |c - cur| < |acc - cur|
      · rw [if_pos hc]
      · rw [if_neg hc]
        exact not_lt.mp hc
    refine ⟨le_trans h1 hacc, ?_⟩
    intro x hx
    rcases List.mem_cons.mp hx with hx | hx
    · subst hx
      exact le_trans h1 hc2
    · exact h2 x hx

lemma unwrapAz_spec (low up T current az : ℚ) (hT : 0 < T) (c : ℚ)
    (h : unwrapAz low up T current az = some c) :
    low ≤ c ∧ c ≤ up ∧ (∃ k : ℤ, c = az + (k : ℚ) * T) ∧
    ∀ k : ℤ, low ≤ az + (k : ℚ) * T → az + (k : ℚ) * T ≤ up →
      |c - current| ≤ |az + (k : ℚ) * T - current| := by
  rw [unwrapAz] at h
  rcases hL : axisCandidates low up T az with _ | ⟨c0, cs⟩
  · rw [hL] at h
    exact Option.noConfusion h
  · rw [hL] at h
    injection h with h
    subst h
    have hmem : (cs.foldl (fun best c2 => if |c2 - current| < |best - current| then c2 else best) c0)
        ∈ axisCandidates low up T az := by
      rw [hL]
      rcases foldl_min_choose current cs c0 with hm | hm
      · rw [hm]
        exact List.mem_cons_self _ _
      · exact List.mem_cons_of_mem _ hm
    obtain ⟨hlow, hup, hex⟩ := (mem_axisCandidates low up T az hT _).mp hmem
    refine ⟨hlow, hup, hex, ?_⟩
    intro k hklow hkup
    have hkm : az + (k : ℚ) * T ∈ axisCandidates low up T az :=
      (mem_axisCandidates low up T az hT _).mpr ⟨hklow, hkup, k, rfl⟩
    rw [hL] at hkm
    obtain ⟨hle1, hle2⟩ := foldl_min_le current cs c0
    rcases List.mem_cons.mp hkm with hm | hm
    · rw [hm]
      exact hle1
    · exact hle2 _ hm

/-- The end-to-end scenario of spec §8: azimuth range [-90°, 270°], current
axis1 = -80°, raw target azimuth 350° resolves to -10°, not 350°. -/
lemma unwrapAz_concrete : unwrapAz (-90) 270 360 (-80) 350 = some (-10) := by
  have hc : ⌈((-90 : ℚ) - 350) / 360⌉ = -1 := by
    rw [Int.ceil_eq_iff]
    norm_num
  have hf : ⌊((270 : ℚ) - 350) / 360⌋ = -1 := by
    rw [Int.floor_eq_iff]
    norm_num
  rw [unwrapAz, axisCandidates, hc, hf]
  norm_num [List.range_succ]

/-- C5: nearest-to-current unwrapping yields an in-range candidate of the
form raw azimuth + k·2π minimizing the absolute distance to the current
axis-1 coordinate; in particular, for the range [-90°, 270°] with current
axis1 = -80° and raw target azimuth 350°, the resolved axis1 is -10°,
not 350°. -/
theorem C5_unwrapAz_nearest :
    (∀ (low up T current az c : ℚ), 0 < T →
      unwrapAz low up T current az = some c →
      low ≤ c ∧ c ≤ up ∧ (∃ k : ℤ, c = az + (k : ℚ) * T) ∧
      ∀ k : ℤ, low ≤ az + (k : ℚ) * T → az + (k : ℚ) * T ≤ up →
        |c - current| ≤ |az + (k : ℚ) * T - current|) ∧
    unwrapAz (-90) 270 360 (-80) 350 = some (-10) :=
  ⟨fun low up T current az c hT h => unwrapAz_spec low up T current az hT c h,
   unwrapAz_concrete⟩

/-- Witness for C5: the spec §8 scenario instantiated through the theorem. -/
theorem C5_unwrapAz_nearest_witness :
    (0 : ℚ) < 360 ∧ unwrapAz (-90) 270 360 (-80) 350 = some (-10) ∧
    ((-90 : ℚ) ≤ -10 ∧ (-10 : ℚ) ≤ 270 ∧
      (∃ k : ℤ, (-10 : ℚ) = 350 + (k : ℚ) * 360) ∧
      ∀ k : ℤ, (-90 : ℚ) ≤ 350 + (k : ℚ) * 360 → 350 + (k : ℚ) * 360 ≤ 270 →
        |(-10 : ℚ) - (-80)| ≤ |350 + (k : ℚ) * 360 - (-80)|) := by
  refine ⟨by norm_num, C5_unwrapAz_nearest.2, ?_⟩
  exact C5_unwrapAz_nearest.1 (-90) 270 360 (-80) 350 (-10) (by norm_num)
    C5_unwrapAz_nearest.2

/-- Modelled from the spec: `VLBI_station::slewTime` — declared in
src/VLBI_station.h (lines 400-406) with its implementation absent.  Per spec
§4.3 the slew duration is the larger of the two per-axis traversal times
under a linear slew-rate model (axis-1 distance / axis-1 rate versus axis-2
distance / axis-2 rate), after first resolving the target's axis-1
coordinate by nearest-to-current disambiguation relative to the current
pointing; `none` when no axis candidate is within the limits (visibility is
false there and slew time undefined). -/
def slewTime (rate1 rate2 low up T : ℚ) (fromv tov : PointingVector) : Option ℚ :=
  match unwrapAz low up T fromv.az tov.az with
  | none => none
  | some ax1 => some (max (|ax1 - fromv.az| / rate1) (|tov.el - fromv.el| / rate2))

/-- C6: when the target resolves (it is visible), `slewTime` equals the
larger of the two per-axis traversal times, the axis-1 coordinate having
been resolved by nearest-to-current disambiguation relative to the current
pointing. -/
theorem C6_slewTime_max (rate1 rate2 low up T : ℚ) (fromv tov : PointingVector)
    (hT : 0 < T) (ax1 : ℚ) (h : unwrapAz low up T fromv.az tov.az = some ax1) :
    slewTime rate1 rate2 low up T fromv tov =
      some (max (|ax1 - fromv.az| / rate1) (|tov.el - fromv.el| / rate2)) ∧
    low ≤ ax1 ∧ ax1 ≤ up ∧ (∃ k : ℤ, ax1 = tov.az + (k : ℚ) * T) ∧
    ∀ k : ℤ, low ≤ tov.az + (k : ℚ) * T → tov.az + (k : ℚ) * T ≤ up →
      |ax1 - fromv.az| ≤ |tov.az + (k : ℚ) * T - fromv.az| := by
  refine ⟨?_, unwrapAz_spec low up T fromv.az tov.az hT ax1 h⟩
  simp only [slewTime, h]

/-- Witness for C6: rates 2 and 3, the §8 wrap scenario, elevations 10 and
30; the axis-1 leg dominates: max(70/2, 20/3) = 35. -/
theorem C6_slewTime_max_witness :
    (0 : ℚ) < 360 ∧
    unwrapAz (-90) 270 360 (-80) 350 = some (-10) ∧
    slewTime 2 3 (-90) 270 360 ⟨0, -80, 10⟩ ⟨30, 350, 30⟩ =
      some (max (|(-10 : ℚ) - (-80)| / 2) (|(30 : ℚ) - 10| / 3)) := by
  refine ⟨by norm_num, unwrapAz_concrete, ?_⟩
  exact (C6_slewTime_max 2 3 (-90) 270 360 ⟨0, -80, 10⟩ ⟨30, 350, 30⟩ (by norm_num)
    (-10) unwrapAz_concrete).1

/-- Embedding of `VLBI_station::getMinSNR` (src/VLBI_station.h, lines
229-235): walk the configured `PARA.minSNR` list and return the value of the
first pair whose band matches; when no pair matches the C++ control flow
falls off the end of a non-void function (no defined result), modelled as
`none`. -/
def getMinSNR : List (String × ℚ) → String → Option ℚ
  | [], _ => none
  | p :: rest, band => if p.1 = band then some p.2 else getMinSNR rest band

/-- C8: `getMinSNR` returns the value paired with the band by the first
matching entry of the configured minimum-SNR table when the band is present;
when the band is absent it yields no defined result, so the caller must
guard that case. -/
theorem C8_getMinSNR_first_match :
    (∀ (l : List (String × ℚ)) (band : String),
      (∀ p ∈ l, p.1 ≠ band) → getMinSNR l band = none) ∧
    (∀ (l1 l2 : List (String × ℚ)) (band : String) (v : ℚ),
      (∀ p ∈ l1, p.1 ≠ band) → getMinSNR (l1 ++ (band, v) :: l2) band = some v) := by
  constructor
  · intro l band
    induction l with
    | nil => intro _; rfl
    | cons p rest ih =>
      intro h
      rw [getMinSNR, if_neg (h p (List.mem_cons_self p rest))]
      exact ih (fun q hq => h q (List.mem_cons_of_mem p hq))
  · intro l1 l2 band v
    induction l1 with
    | nil =>
      intro _
      rw [List.nil_append, getMinSNR, if_pos rfl]
    | cons p rest ih =>
      intro h
      rw [List.cons_append, getMinSNR, if_neg (h p (List.mem_cons_self p rest))]
      exact ih (fun q hq => h q (List.mem_cons_of_mem p hq))

/-- Witness for C8: band "S" is absent from [("X", 10)]; appended behind that
prefix, ("S", 20) is the first "S" entry and its value is returned. -/
theorem C8_getMinSNR_first_match_witness :
    (∀ p ∈ [(("X" : String), (10 : ℚ))], p.1 ≠ "S") ∧
    getMinSNR [("X", 10)] "S" = none ∧
    getMinSNR ([("X", 10)] ++ ("S", 20) :: [("C", 30)]) "S" = some 20 := by
  have hpre : ∀ p ∈ [(("X" : String), (10 : ℚ))], p.1 ≠ "S" := by
    intro p hp
    rcases List.mem_singleton.mp hp with rfl
    decide
  exact ⟨hpre, C8_getMinSNR_first_match.1 [("X", 10)] "S" hpre,
    C8_getMinSNR_first_match.2 [("X", 10)] [("C", 30)] "S" 20 hpre⟩

/-- Embedding of `VLBI_baseline` (src/VLBI_baseline.h): two station ids, a
source id, a start time, and a scan duration that is unassigned until
`setScanDuration` is called (reading it before assignment is undefined in
the C++, modelled as `none`). -/
structure VLBI_baseline where
  staid1 : ℤ
  staid2 : ℤ
  srcid : ℤ
  startTime : ℕ
  scanDuration : Option ℕ
deriving DecidableEq, Repr

/-- Modelled from the spec: the four-argument constructor
`VLBI_baseline(staid1, staid2, srcid, startTime)` — declared in
src/VLBI_baseline.h (line 35) with its implementation absent; per spec §4.5
the type is a pure value with no behavior beyond construction, so the
constructor stores its arguments unvalidated and leaves the duration
unassigned. -/
def mkBaseline (staid1 staid2 srcid : ℤ) (startTime : ℕ) : VLBI_baseline :=
  ⟨staid1, staid2, srcid, startTime, none⟩

/-- Embedding of the inline getters of src/VLBI_baseline.h. -/
def VLBI_baseline.getStaid1 (b : VLBI_baseline) : ℤ := b.staid1

/-- Embedding of `VLBI_baseline::getStaid2`. -/
def VLBI_baseline.getStaid2 (b : VLBI_baseline) : ℤ := b.staid2

/-- Embedding of `VLBI_baseline::getSrcid`. -/
def VLBI_baseline.getSrcid (b : VLBI_baseline) : ℤ := b.srcid

/-- Embedding of `VLBI_baseline::getStartTime`. -/
def VLBI_baseline.getStartTime (b : VLBI_baseline) : ℕ := b.startTime

/-- Embedding of `VLBI_baseline::getScanDuration`. -/
def VLBI_baseline.getScanDuration (b : VLBI_baseline) : Option ℕ := b.scanDuration

/-- Embedding of `VLBI_baseline::setScanDuration` (src/VLBI_baseline.h,
lines 125-127): assigns only the scanDuration field. -/
def VLBI_baseline.setScanDuration (b : VLBI_baseline) (scanDuration : ℕ) :
    VLBI_baseline :=
  { b with scanDuration := some scanDuration }

/-- Counterexample to C9 as stated: the constructor accepts two equal
station identifiers (nothing validates distinctness), and `setScanDuration`
accepts the non-positive duration 0. -/
theorem C9_baseline_counterexample :
    (mkBaseline 3 3 1 0).getStaid1 = (mkBaseline 3 3 1 0).getStaid2 ∧
    ((mkBaseline 1 2 3 4).setScanDuration 0).getScanDuration = some 0 :=
  ⟨rfl, rfl⟩

/-- C9 (amended): the getters return exactly the constructor arguments, the
duration is unassigned at construction, and `setScanDuration` changes only
the scanDuration field, leaving staid1, staid2, srcid and startTime
unchanged; distinctness of the station identifiers and positivity of the
assigned duration are caller obligations that the code does not enforce. -/
theorem C9_baseline_fields (staid1 staid2 srcid : ℤ) (startTime d : ℕ)
    (b : VLBI_baseline) :
    (mkBaseline staid1 staid2 srcid startTime).getStaid1 = staid1 ∧
    (mkBaseline staid1 staid2 srcid startTime).getStaid2 = staid2 ∧
    (mkBaseline staid1 staid2 srcid startTime).getSrcid = srcid ∧
    (mkBaseline staid1 staid2 srcid startTime).getStartTime = startTime ∧
    (mkBaseline staid1 staid2 srcid startTime).getScanDuration = none ∧
    (b.setScanDuration d).getStaid1 = b.getStaid1 ∧
    (b.setScanDuration d).getStaid2 = b.getStaid2 ∧
    (b.setScanDuration d).getSrcid = b.getSrcid ∧
    (b.setScanDuration d).getStartTime = b.getStartTime ∧
    (b.setScanDuration d).getScanDuration = some d :=
  ⟨rfl, rfl, rfl, rfl, rfl, rfl, rfl, rfl, rfl, rfl⟩
